import Mathlib

/-!
Shallow embedding of the temporal event aggregation engine of the Memex
history search extension: the shared admission rule `attemptAdd`, the
latest-event resolver `mapUrlsToLatestEvents`, the dispatcher
`groupLatestEventsByUrl`, the end-date lookback aggregator
`lookbackFromEndDate`, and the bookmarks-anchored lookback aggregator
`lookbackBookmarksTime`.

The ordered event store (Dexie/IndexedDB) is modelled as two finite lists
of `(time, url)` records; an index range scan is modelled by filtering the
list to the scanned key range and sorting by time descending (reverse index
order).  Timestamps are naturals; the loop upper bound of the bookmarks
aggregator is an `Option Int` so that the `Infinity` produced by
`Math.min()` over an empty result set (`none`) and negative bounds are
represented exactly.  JS `Map`s are association lists in insertion order
with unique keys; `Map.prototype.set` overwrites in place.
-/

namespace Memex

/-- `PageResultsMap`: a JS `Map` from URL to timestamp, modelled as an
association list in insertion order with unique keys. -/
abbrev PageResultsMap := List (String × Nat)

/-- The two time-ordered event logs of the store.  Records are `(time, url)`
pairs in arbitrary physical order; scans sort the way the index would. -/
structure Store where
  visits : List (Nat × String)
  bookmarks : List (Nat × String)

/-- `Map.get`: value of the first (unique) entry with the given key. -/
def mapGet : PageResultsMap → String → Option Nat
  | [], _ => none
  | (k, v) :: rest, u => if k = u then some v else mapGet rest u

/-- `Map.set`: overwrite in place when the key exists, append otherwise
(a JS `Map` keeps the original insertion position on overwrite). -/
def mapSet : PageResultsMap → String → Nat → PageResultsMap
  | [], u, t => [(u, t)]
  | (k, v) :: rest, u, t =>
    if k = u then (u, t) :: rest else (k, v) :: mapSet rest u t

/-- Insert into a time-descending list, keeping larger times first.  Equal
times keep their relative store order; the URL tie-break of the composite
`[time+url]` index is not modelled because no property below depends on the
order of records with equal times. -/
def insertDesc (x : Nat × String) : List (Nat × String) → List (Nat × String)
  | [] => [x]
  | y :: ys => if y.1 ≤ x.1 then x :: y :: ys else y :: insertDesc x ys

/-- Sort by time, descending: the order in which a `.reverse()` index scan
yields the records. -/
def sortDesc : List (Nat × String) → List (Nat × String)
  | [] => []
  | x :: xs => insertDesc x (sortDesc xs)

/-- Source of one per-URL reverse visit scan
(`db.visits.where('url').equals(url).reverse()`): that URL's visit
records, most recent first. -/
def visitsOfUrl (visits : List (Nat × String)) (u : String) : List (Nat × String) :=
  sortDesc (visits.filter (fun r => decide (r.2 = u)))

/-- `endDate != null && endDate < time` of the admission rule. -/
def afterEnd (endDate : Option Nat) (time : Nat) : Bool :=
  match endDate with
  | none => false
  | some e => decide (e < time)

/-- `startDate != null && startDate > time` of the admission rule. -/
def beforeStart (startDate : Option Nat) (time : Nat) : Bool :=
  match startDate with
  | none => false
  | some s => decide (s > time)

/-- The admission rule `attemptAdd` shared by all phases of
`mapUrlsToLatestEvents`: reject when an existing entry is strictly newer or
(unless `skipDateCheck`) the time falls outside the date bounds; otherwise
set `url ↦ time`.  Returns the `(returned flag, updated map)` pair. -/
def attemptAdd (startDate endDate : Option Nat) (skipDateCheck : Bool)
    (urlTimeMap : PageResultsMap) (time : Nat) (url : String) :
    Bool × PageResultsMap :=
  let existing := (mapGet urlTimeMap url).getD 0
  if decide (existing > time) || (!skipDateCheck && afterEnd endDate time)
      || (!skipDateCheck && beforeStart startDate time) then
    (false, urlTimeMap)
  else
    (true, mapSet urlTimeMap url time)

/-- One per-URL visit scan of `mapUrlsToLatestEvents`: records arrive most
recent first, and the `until(() => doneFlags[i])` predicate (checked before
each record) stops the scan right after the first record whose admission
succeeded. -/
def scanVisitsUntil (startDate endDate : Option Nat) :
    List (Nat × String) → PageResultsMap → PageResultsMap
  | [], m => m
  | (t, u) :: rest, m =>
    match attemptAdd startDate endDate false m t u with
    | (true, m1) => m1
    | (false, m1) => scanVisitsUntil startDate endDate rest m1

/-- `mapUrlsToLatestEvents` (the resolver).  Phase 1 folds the admission
rule (with `skipDateCheck = bookmarks`) over the bookmark records of the
requested URLs; the fold is written in store order since the admission
rule's resulting map does not depend on the iteration order of this scan.
Phase 2 runs one per-URL reverse visit scan for each URL to check; the
scans write disjoint keys, so the concurrent fan-out of the source is
modelled as a sequential fold.  Phase 3 merges visits then bookmarks into a
fresh map with the admission rule, date checks enabled. -/
def mapUrlsToLatestEvents (startDate endDate : Option Nat) (bookmarks : Bool)
    (store : Store) (urls : List String) : PageResultsMap :=
  let latestBookmarks :=
    (store.bookmarks.filter (fun r => urls.contains r.2)).foldl
      (fun m r => (attemptAdd startDate endDate bookmarks m r.1 r.2).2) []
  let urlsToCheck := if bookmarks then latestBookmarks.map Prod.fst else urls
  let latestVisits :=
    urlsToCheck.foldl
      (fun m u => scanVisitsUntil startDate endDate (visitsOfUrl store.visits u) m) []
  let merged :=
    latestVisits.foldl (fun m p => (attemptAdd startDate endDate false m p.2 p.1).2) []
  latestBookmarks.foldl (fun m p => (attemptAdd startDate endDate false m p.2 p.1).2) merged

/-- Visits leg of `lookbackFromEndDate`: reverse scan of the in-range
visits with `until(() => latestVisits.size >= skip + limit)` checked before
each record; a record is kept when its URL is new and the allow list
permits it. -/
def scanLatestVisits (allow : String → Bool) (cap : Nat) :
    List (Nat × String) → PageResultsMap → PageResultsMap
  | [], m => m
  | (t, u) :: rest, m =>
    if cap ≤ m.length then m
    else
      scanLatestVisits allow cap rest
        (if (mapGet m u).isNone && allow u then mapSet m u t else m)

/-- Reverse bookmark scan with the `skip + limit` stopping rule (checked
before each record), recording `url ↦ time` unconditionally per record.
Used by the bookmarks leg of `lookbackFromEndDate` and by the batch fetch
of `lookbackBookmarksTime`. -/
def scanLatestBookmarks (cap : Nat) :
    List (Nat × String) → PageResultsMap → PageResultsMap
  | [], m => m
  | (t, u) :: rest, m =>
    if cap ≤ m.length then m
    else scanLatestBookmarks cap rest (mapSet m u t)

/-- The visits-scan map of `lookbackFromEndDate` (`latestVisits`). -/
def lookbackVisitsMap (startDate endDate skip limit : Nat) (allow : String → Bool)
    (store : Store) : PageResultsMap :=
  scanLatestVisits allow (skip + limit)
    (sortDesc (store.visits.filter
      (fun r => decide (startDate ≤ r.1) && decide (r.1 ≤ endDate)))) []

/-- The bookmarks-scan map of `lookbackFromEndDate` (`latestBookmarks`). -/
def lookbackBookmarksMap (startDate endDate skip limit : Nat)
    (store : Store) : PageResultsMap :=
  scanLatestBookmarks (skip + limit)
    (sortDesc (store.bookmarks.filter
      (fun r => decide (startDate ≤ r.1) && decide (r.1 ≤ endDate)))) []

/-- `addToMap` of the merge step of `lookbackFromEndDate`: keep the
strictly greater time per URL. -/
def addToMap (m : PageResultsMap) (time : Nat) (url : String) : PageResultsMap :=
  if (mapGet m url).getD 0 < time then mapSet m url time else m

/-- `lookbackFromEndDate`: two independent capped reverse scans, then the
merge folding `addToMap` over the visits entries and then the bookmark
entries. -/
def lookbackFromEndDate (startDate endDate skip limit : Nat) (allow : String → Bool)
    (store : Store) : PageResultsMap :=
  (lookbackVisitsMap startDate endDate skip limit allow store ++
      lookbackBookmarksMap startDate endDate skip limit store).foldl
    (fun m p => addToMap m p.2 p.1) []

/-- `time ≤ upperBound` where `none` stands for the `Infinity` produced by
`Math.min()` over an empty collection. -/
def leUB (time : Nat) : Option Int → Bool
  | none => true
  | some b => decide ((time : Int) ≤ b)

/-- Backfill visit lookup of `lookbackBookmarksTime`:
`db.visits.where('url').equals(url).reverse()` scanned until the first
visit with `visitTime ≤ endDate`, i.e. the most recent visit time of the
page that is at most `endDate`. -/
def latestVisitAtOrBefore (visits : List (Nat × String)) (u : String)
    (endDate : Nat) : Option Nat :=
  ((visitsOfUrl visits u).find? (fun r => decide (r.1 ≤ endDate))).map Prod.fst

/-- Backfill of one fetched bookmark entry `(url, time)`: an entry newer
than `endDate` is replaced by the latest in-bounds visit time when one
exists, otherwise kept unchanged. -/
def backfillEntry (visits : List (Nat × String)) (endDate : Nat)
    (e : String × Nat) : String × Nat :=
  if endDate < e.2 then
    match latestVisitAtOrBefore visits e.1 endDate with
    | some vt => (e.1, vt)
    | none => e
  else e

/-- Admit filter of `lookbackBookmarksTime`:
`time >= startDate && time <= endDate`. -/
def bmAdmit (startDate endDate : Nat) (e : String × Nat) : Bool :=
  decide (startDate ≤ e.2) && decide (e.2 ≤ endDate)

/-- Loop state of `lookbackBookmarksTime`. -/
structure BmState where
  results : PageResultsMap
  upperBound : Option Int
  bmsExhausted : Bool
deriving DecidableEq

/-- One iteration of the `while` body of `lookbackBookmarksTime`: fetch a
batch of bookmarks over `[startDate, upperBound]`, flag exhaustion when the
batch came up short, backfill out-of-window entries from the visit log,
rebuild `results` as `new Map([...results, ...admitted batch])`, and set
the next upper bound to `Math.min(...results.values()) - 1`. -/
def bmStep (startDate endDate skip limit : Nat) (store : Store) (s : BmState) :
    BmState :=
  let bms :=
    scanLatestBookmarks (skip + limit)
      (sortDesc (store.bookmarks.filter
        (fun r => decide (startDate ≤ r.1) && leUB r.1 s.upperBound))) []
  let exhausted := s.bmsExhausted || decide (bms.length < skip + limit)
  let backfilled := bms.map (backfillEntry store.visits endDate)
  let results2 :=
    (s.results ++ backfilled.filter (bmAdmit startDate endDate)).foldl
      (fun m p => mapSet m p.1 p.2) []
  let ub2 :=
    match (results2.map Prod.snd).min? with
    | none => none
    | some mn => some ((mn : Int) - 1)
  ⟨results2, ub2, exhausted⟩

/-- The `while (results.size < limit && !bmsExhausted)` loop, fuel-indexed:
`none` means the loop has not finished within `fuel` iterations. -/
def bmLoop (startDate endDate skip limit : Nat) (store : Store) :
    Nat → BmState → Option PageResultsMap
  | 0, s =>
    if s.results.length < limit ∧ s.bmsExhausted = false then none
    else some s.results
  | fuel + 1, s =>
    if s.results.length < limit ∧ s.bmsExhausted = false then
      bmLoop startDate endDate skip limit store fuel
        (bmStep startDate endDate skip limit store s)
    else some s.results

/-- `lookbackBookmarksTime`: run the loop from an empty result map with the
initial upper bound `Date.now()` (the `now` argument).  The parameter
defaults of the source's destructuring are applied by the dispatcher. -/
def lookbackBookmarksTime (fuel startDate endDate skip limit now : Nat)
    (store : Store) : Option PageResultsMap :=
  bmLoop startDate endDate skip limit store fuel ⟨[], some (now : Int), false⟩

/-- A sequence of admission attempts against one fixed key: each element
carries the `(startDate, endDate, skipDateCheck, time)` of one
`attemptAdd` call, applied left to right. -/
def applyAddsToKey (k : String) (ops : List (Option Nat × Option Nat × Bool × Nat))
    (m : PageResultsMap) : PageResultsMap :=
  ops.foldl (fun acc o => (attemptAdd o.1 o.2.1 o.2.2.1 acc o.2.2.2 k).2) m

/-- `Partial<SearchParams>`: `none` means the field was not supplied. -/
structure SearchParams where
  startDate : Option Nat := none
  endDate : Option Nat := none
  skip : Option Nat := none
  limit : Option Nat := none
  bookmarks : Bool := false

/-- `groupLatestEventsByUrl`: pure dispatch on the `bookmarks` flag, with
the destructuring defaults of the two lookback functions (`startDate = 0`,
`endDate = Date.now()`, `skip = 0`, `limit = 10`) applied here. -/
def groupLatestEventsByUrl (params : SearchParams) (now fuel : Nat)
    (allow : String → Bool) (store : Store) : Option PageResultsMap :=
  if params.bookmarks then
    lookbackBookmarksTime fuel (params.startDate.getD 0) (params.endDate.getD now)
      (params.skip.getD 0) (params.limit.getD 10) now store
  else
    some (lookbackFromEndDate (params.startDate.getD 0) (params.endDate.getD now)
      (params.skip.getD 0) (params.limit.getD 10) allow store)

/-! ## Map lemmas -/

theorem mapGet_mapSet_self (m : PageResultsMap) (u : String) (t : Nat) :
    mapGet (mapSet m u t) u = some t := by
  induction m with
  | nil => simp [mapSet, mapGet]
  | cons p rest ih =>
    obtain ⟨k, v⟩ := p
    by_cases h : k = u
    · simp [mapSet, h, mapGet]
    · simp [mapSet, h, mapGet, ih]

theorem mapGet_mapSet_ne (m : PageResultsMap) (u u2 : String) (t : Nat)
    (h : u2 ≠ u) : mapGet (mapSet m u t) u2 = mapGet m u2 := by
  induction m with
  | nil => simp [mapSet, mapGet, Ne.symm h]
  | cons p rest ih =>
    obtain ⟨k, v⟩ := p
    by_cases hk : k = u
    · subst hk
      simp [mapSet, mapGet, Ne.symm h]
    · simp [mapSet, hk, mapGet, ih]

theorem length_mapSet_le (m : PageResultsMap) (u : String) (t : Nat) :
    (mapSet m u t).length ≤ m.length + 1 := by
  induction m with
  | nil => simp [mapSet]
  | cons p rest ih =>
    obtain ⟨k, v⟩ := p
    by_cases h : k = u
    · simp [mapSet, h]
    · simp only [mapSet, if_neg h, List.length_cons]
      omega

theorem mapGet_isSome_of_mem (m : PageResultsMap) (u : String) (t : Nat)
    (h : (u, t) ∈ m) : (mapGet m u).isSome = true := by
  induction m with
  | nil => simp at h
  | cons p rest ih =>
    obtain ⟨k, v⟩ := p
    rcases List.mem_cons.mp h with h1 | h1
    · obtain ⟨h2, h3⟩ := Prod.mk.injEq .. ▸ h1
      subst h2
      simp [mapGet]
    · by_cases hk : k = u
      · simp [mapGet, hk]
      · simp only [mapGet, if_neg hk]
        exact ih h1

/-! ## Admission-rule lemmas -/

theorem attemptAdd_snd (sd ed : Option Nat) (sk : Bool) (m : PageResultsMap)
    (t : Nat) (u : String) :
    (attemptAdd sd ed sk m t u).2 =
      if (attemptAdd sd ed sk m t u).1 = true then mapSet m u t else m := by
  simp only [attemptAdd]
  split <;> simp

theorem attemptAdd_fst_le (sd ed : Option Nat) (sk : Bool) (m : PageResultsMap)
    (t : Nat) (u : String) (h : (attemptAdd sd ed sk m t u).1 = true) :
    (mapGet m u).getD 0 ≤ t := by
  by_cases hgt : (mapGet m u).getD 0 ≤ t
  · exact hgt
  · exfalso
    have hd : decide ((mapGet m u).getD 0 > t) = true := by
      simp only [decide_eq_true_eq]
      omega
    simp [attemptAdd, hd] at h

theorem attemptAdd_fst (sd ed : Option Nat) (sk : Bool) (m : PageResultsMap)
    (t : Nat) (u : String) :
    (attemptAdd sd ed sk m t u).1 =
      !(decide ((mapGet m u).getD 0 > t) || (!sk && afterEnd ed t)
          || (!sk && beforeStart sd t)) := by
  simp only [attemptAdd]
  split <;> rename_i h
  · simp [h]
  · simp only [Bool.not_eq_true] at h
    simp [h]

theorem attemptAdd_fst_iff (sd ed t : Nat) (sk : Bool) (m : PageResultsMap)
    (u : String) :
    (attemptAdd (some sd) (some ed) sk m t u).1 = true ↔
      ((mapGet m u).getD 0 ≤ t ∧ (sk = true ∨ (sd ≤ t ∧ t ≤ ed))) := by
  rw [attemptAdd_fst]
  cases sk
  · simp [afterEnd, beforeStart, Bool.not_or, Bool.or_eq_false_iff,
      decide_eq_false_iff_not]
    omega
  · simp [afterEnd, beforeStart, Bool.not_or, Bool.or_eq_false_iff,
      decide_eq_false_iff_not]

theorem attemptAdd_inverted (sd ed : Nat) (hlt : ed < sd) (m : PageResultsMap)
    (t : Nat) (u : String) :
    attemptAdd (some sd) (some ed) false m t u = (false, m) := by
  simp only [attemptAdd, afterEnd, beforeStart]
  split
  · rfl
  · rename_i h
    exfalso
    simp only [Bool.or_eq_true, Bool.and_eq_true, decide_eq_true_eq,
      Bool.not_false, Bool.true_and, not_or] at h
    omega

theorem mapGet_attemptAdd_mono (sd ed : Option Nat) (sk : Bool)
    (m : PageResultsMap) (t : Nat) (u k : String) (v : Nat)
    (h : mapGet m k = some v) :
    ∃ v2, mapGet (attemptAdd sd ed sk m t u).2 k = some v2 ∧ v ≤ v2 := by
  rw [attemptAdd_snd]
  by_cases hf : (attemptAdd sd ed sk m t u).1 = true
  · simp only [hf, if_true]
    by_cases hk : k = u
    · subst hk
      refine ⟨t, mapGet_mapSet_self .., ?_⟩
      have hle := attemptAdd_fst_le sd ed sk m t k hf
      rw [h] at hle
      exact hle
    · exact ⟨v, by rw [mapGet_mapSet_ne _ _ _ _ hk]; exact h, le_rfl⟩
  · simp only [hf, if_false]
    exact ⟨v, h, le_rfl⟩

/-- Every value a date-checked admission fold can leave in the map lies in
the window, provided every value already present did. -/
theorem foldl_attemptAdd_window (sd ed : Nat) (l : List (String × Nat))
    (m0 : PageResultsMap)
    (hm : ∀ u t, mapGet m0 u = some t → sd ≤ t ∧ t ≤ ed) :
    ∀ u t, mapGet (l.foldl
        (fun m p => (attemptAdd (some sd) (some ed) false m p.2 p.1).2) m0) u =
      some t → sd ≤ t ∧ t ≤ ed := by
  induction l generalizing m0 with
  | nil => exact hm
  | cons p rest ih =>
    simp only [List.foldl_cons]
    apply ih
    intro u t h
    rw [attemptAdd_snd] at h
    by_cases hf : (attemptAdd (some sd) (some ed) false m0 p.2 p.1).1 = true
    · simp only [hf, if_true] at h
      by_cases hk : u = p.1
      · subst hk
        rw [mapGet_mapSet_self] at h
        obtain rfl : p.2 = t := by injection h
        have := (attemptAdd_fst_iff sd ed p.2 false m0 p.1).mp hf
        simpa using this.2
      · rw [mapGet_mapSet_ne _ _ _ _ hk] at h
        exact hm u t h
    · simp only [hf, if_false] at h
      exact hm u t h

/-- An admission fold with an inverted window admits nothing. -/
theorem foldl_attemptAdd_inverted (sd ed : Nat) (hlt : ed < sd)
    (l : List (String × Nat)) (m0 : PageResultsMap) :
    l.foldl (fun m p => (attemptAdd (some sd) (some ed) false m p.2 p.1).2) m0 =
      m0 := by
  induction l generalizing m0 with
  | nil => rfl
  | cons p rest ih =>
    have hstep : (attemptAdd (some sd) (some ed) false m0 p.2 p.1).2 = m0 := by
      rw [attemptAdd_inverted sd ed hlt]
    simp only [List.foldl_cons, hstep]
    exact ih m0

/-! ## Capped-scan lemmas -/

theorem scanLatestVisits_length (allow : String → Bool) (cap : Nat)
    (l : List (Nat × String)) (m : PageResultsMap) (h : m.length ≤ cap) :
    (scanLatestVisits allow cap l m).length ≤ cap := by
  induction l generalizing m with
  | nil => simpa [scanLatestVisits] using h
  | cons r rest ih =>
    obtain ⟨t, u⟩ := r
    by_cases hc : cap ≤ m.length
    · simpa [scanLatestVisits, hc] using h
    · simp only [scanLatestVisits, if_neg hc]
      apply ih
      split
      · have := length_mapSet_le m u t
        omega
      · omega

theorem scanLatestBookmarks_length (cap : Nat) (l : List (Nat × String))
    (m : PageResultsMap) (h : m.length ≤ cap) :
    (scanLatestBookmarks cap l m).length ≤ cap := by
  induction l generalizing m with
  | nil => simpa [scanLatestBookmarks] using h
  | cons r rest ih =>
    obtain ⟨t, u⟩ := r
    by_cases hc : cap ≤ m.length
    · simpa [scanLatestBookmarks, hc] using h
    · simp only [scanLatestBookmarks, if_neg hc]
      apply ih
      have := length_mapSet_le m u t
      omega

theorem scanLatestVisits_allowed (allow : String → Bool) (cap : Nat)
    (l : List (Nat × String)) (m : PageResultsMap)
    (hm : ∀ u, (mapGet m u).isSome = true → allow u = true) :
    ∀ u, (mapGet (scanLatestVisits allow cap l m) u).isSome = true →
      allow u = true := by
  induction l generalizing m with
  | nil => simpa [scanLatestVisits] using hm
  | cons r rest ih =>
    obtain ⟨t, u0⟩ := r
    by_cases hc : cap ≤ m.length
    · simpa [scanLatestVisits, hc] using hm
    · simp only [scanLatestVisits, if_neg hc]
      apply ih
      intro u hu
      by_cases hadd : ((mapGet m u0).isNone && allow u0) = true
      · rw [if_pos hadd] at hu
        by_cases hk : u = u0
        · subst hk
          exact (Bool.and_eq_true .. ▸ hadd).2
        · rw [mapGet_mapSet_ne _ _ _ _ hk] at hu
          exact hm u hu
      · rw [if_neg hadd] at hu
        exact hm u hu

/-- A key of the merged map of `lookbackFromEndDate` either was already
present or comes from one of the merged entry lists. -/
theorem mapGet_foldl_addToMap (l : List (String × Nat)) (m0 : PageResultsMap)
    (u : String) (t : Nat)
    (h : mapGet (l.foldl (fun m p => addToMap m p.2 p.1) m0) u = some t) :
    (mapGet m0 u).isSome = true ∨ ∃ t2, (u, t2) ∈ l := by
  induction l generalizing m0 with
  | nil =>
    left
    simp only [List.foldl_nil] at h
    simp [h]
  | cons p rest ih =>
    simp only [List.foldl_cons] at h
    rcases ih _ h with h1 | ⟨t2, h2⟩
    · by_cases hk : u = p.1
      · subst hk
        exact Or.inr ⟨p.2, List.mem_cons_self _ _⟩
      · left
        unfold addToMap at h1
        split at h1
        · rwa [mapGet_mapSet_ne _ _ _ _ hk] at h1
        · exact h1
    · exact Or.inr ⟨t2, List.mem_cons_of_mem _ h2⟩

/-! ## Reverse-scan order lemmas -/

theorem mem_insertDesc (x a : Nat × String) (l : List (Nat × String)) :
    a ∈ insertDesc x l ↔ a = x ∨ a ∈ l := by
  induction l with
  | nil => simp [insertDesc]
  | cons y ys ih =>
    by_cases h : y.1 ≤ x.1
    · simp [insertDesc, h, List.mem_cons]
    · simp [insertDesc, h, ih, List.mem_cons]
      tauto

theorem mem_sortDesc (a : Nat × String) (l : List (Nat × String)) :
    a ∈ sortDesc l ↔ a ∈ l := by
  induction l with
  | nil => simp [sortDesc]
  | cons x xs ih => simp [sortDesc, mem_insertDesc, ih, List.mem_cons]

theorem pairwise_insertDesc (x : Nat × String) (l : List (Nat × String))
    (h : l.Pairwise (fun a b => b.1 ≤ a.1)) :
    (insertDesc x l).Pairwise (fun a b => b.1 ≤ a.1) := by
  induction l with
  | nil => simp [insertDesc]
  | cons y ys ih =>
    obtain ⟨hy, hys⟩ := List.pairwise_cons.mp h
    by_cases hc : y.1 ≤ x.1
    · simp only [insertDesc, if_pos hc]
      refine List.pairwise_cons.mpr ⟨?_, h⟩
      intro b hb
      rcases List.mem_cons.mp hb with rfl | hb2
      · exact hc
      · exact le_trans (hy b hb2) hc
    · simp only [insertDesc, if_neg hc]
      refine List.pairwise_cons.mpr ⟨?_, ih hys⟩
      intro b hb
      rcases (mem_insertDesc x b ys).mp hb with rfl | hb2
      · omega
      · exact hy b hb2

theorem pairwise_sortDesc (l : List (Nat × String)) :
    (sortDesc l).Pairwise (fun a b => b.1 ≤ a.1) := by
  induction l with
  | nil => simp [sortDesc]
  | cons x xs ih => exact pairwise_insertDesc x (sortDesc xs) ih

/-- In a time-descending list, the first record at or before `ed` is the
maximum one at or before `ed`. -/
theorem find_first_le (ed : Nat) (l : List (Nat × String))
    (hp : l.Pairwise (fun a b => b.1 ≤ a.1)) (p : Nat × String)
    (h : l.find? (fun r => decide (r.1 ≤ ed)) = some p) :
    p.1 ≤ ed ∧ p ∈ l ∧ ∀ q ∈ l, q.1 ≤ ed → q.1 ≤ p.1 := by
  induction l with
  | nil => simp at h
  | cons x xs ih =>
    obtain ⟨hx, hxs⟩ := List.pairwise_cons.mp hp
    by_cases hc : x.1 ≤ ed
    · rw [List.find?_cons_of_pos _ (by simpa using hc)] at h
      obtain rfl : x = p := by injection h
      refine ⟨hc, List.mem_cons_self .., ?_⟩
      intro q hq hqle
      rcases List.mem_cons.mp hq with rfl | hq2
      · exact le_rfl
      · exact hx q hq2
    · rw [List.find?_cons_of_neg _ (by simpa using hc)] at h
      obtain ⟨h1, h2, h3⟩ := ih hxs h
      refine ⟨h1, List.mem_cons_of_mem _ h2, ?_⟩
      intro q hq hqle
      rcases List.mem_cons.mp hq with rfl | hq2
      · omega
      · exact h3 q hq2 hqle

/-! ## Loop lemmas -/

/-- A state that satisfies the loop guard and is a fixed point of the loop
body is never left: the `while` loop of `lookbackBookmarksTime` runs out of
any amount of fuel. -/
theorem bmLoop_none_of_fix (sd ed skip limit : Nat) (store : Store)
    (s : BmState) (hg : s.results.length < limit) (he : s.bmsExhausted = false)
    (hfix : bmStep sd ed skip limit store s = s) :
    ∀ fuel, bmLoop sd ed skip limit store fuel s = none := by
  intro fuel
  induction fuel with
  | zero => simp [bmLoop, hg, he]
  | succ n ih => simp [bmLoop, hg, he, hfix, ih]

/-! ## Claim theorems -/

/-- Claim C1 (refutation of the termination guarantee): the loop of
`lookbackBookmarksTime` does not terminate for every store and positive
limit.  With bookmarks `{(100,"x")}`, no visits, window `[0,50]`, `skip=0`,
`limit=1`, the single fetched bookmark is newer than `endDate` and has no
in-bounds visit to substitute, so it is filtered out, `results` stays
empty, the next upper bound is `Math.min() - 1 = Infinity`, and the same
bookmark is refetched forever: the loop finishes within no amount of fuel,
although the claim promises termination within
`total bookmarks / (skip+limit) + 1 = 2` iterations. -/
theorem lookbackBookmarksTime_diverges_c1 (fuel : Nat) :
    lookbackBookmarksTime fuel 0 50 0 1 1000 ⟨[], [(100, "x")]⟩ = none := by
  have hfix : bmStep 0 50 0 1 ⟨[], [(100, "x")]⟩ ⟨[], none, false⟩ =
      ⟨[], none, false⟩ := by decide
  have hnone := bmLoop_none_of_fix 0 50 0 1 ⟨[], [(100, "x")]⟩
    ⟨[], none, false⟩ (by decide) rfl hfix
  cases fuel with
  | zero => simp [lookbackBookmarksTime, bmLoop]
  | succ n =>
    have h1 : bmStep 0 50 0 1 ⟨[], [(100, "x")]⟩
        ⟨[], some (1000 : Int), false⟩ = ⟨[], none, false⟩ := by decide
    simp [lookbackBookmarksTime, bmLoop, h1, hnone n]

/-- Claim C4: a query with `startDate > endDate` is treated as
valid-but-empty by the end-date aggregator and by the resolver, but NOT by
the bookmarks aggregator: there the admit filter can never pass, `results`
stays empty, the upper bound becomes `Infinity`, and with a bookmark at or
above `startDate` filling the batch the loop never returns (witnessed at
`startDate=100`, `endDate=50`, bookmarks `{(150,"x")}`, `skip=0`,
`limit=1`). -/
theorem invertedWindow_c4 :
    (∀ (skip limit : Nat) (allow : String → Bool) (store : Store),
      lookbackFromEndDate 100 50 skip limit allow store = []) ∧
    (∀ (bookmarks : Bool) (store : Store) (urls : List String),
      mapUrlsToLatestEvents (some 100) (some 50) bookmarks store urls = []) ∧
    (∀ fuel, lookbackBookmarksTime fuel 100 50 0 1 1000 ⟨[], [(150, "x")]⟩ =
      none) := by
  refine ⟨?_, ?_, ?_⟩
  · intro skip limit allow store
    have hv : store.visits.filter
        (fun r => decide (100 ≤ r.1) && decide (r.1 ≤ 50)) = [] := by
      rw [List.filter_eq_nil_iff]
      intro a ha
      simp only [Bool.and_eq_true, decide_eq_true_eq, not_and]
      omega
    have hb : store.bookmarks.filter
        (fun r => decide (100 ≤ r.1) && decide (r.1 ≤ 50)) = [] := by
      rw [List.filter_eq_nil_iff]
      intro a ha
      simp only [Bool.and_eq_true, decide_eq_true_eq, not_and]
      omega
    simp [lookbackFromEndDate, lookbackVisitsMap, lookbackBookmarksMap, hv, hb,
      sortDesc, scanLatestVisits, scanLatestBookmarks]
  · intro bookmarks store urls
    simp only [mapUrlsToLatestEvents]
    rw [foldl_attemptAdd_inverted 100 50 (by omega),
      foldl_attemptAdd_inverted 100 50 (by omega)]
  · intro fuel
    have hfix : bmStep 100 50 0 1 ⟨[], [(150, "x")]⟩ ⟨[], none, false⟩ =
        ⟨[], none, false⟩ := by decide
    have hnone := bmLoop_none_of_fix 100 50 0 1 ⟨[], [(150, "x")]⟩
      ⟨[], none, false⟩ (by decide) rfl hfix
    cases fuel with
    | zero => simp [lookbackBookmarksTime, bmLoop]
    | succ n =>
      have h1 : bmStep 100 50 0 1 ⟨[], [(150, "x")]⟩
          ⟨[], some (1000 : Int), false⟩ = ⟨[], none, false⟩ := by decide
      simp [lookbackBookmarksTime, bmLoop, h1, hnone n]

/-- Claim C7 (Scenario A): with visits `{(100,"a"),(50,"a"),(200,"b")}`, no
bookmarks, window `[0,150]`, `bookmarksOnly=false` and
`pageIds = {"a","b"}`, the resolver returns exactly `{"a": 100}`: the visit
at `200` for `"b"` is excluded by the window and the visit at `50` for
`"a"` is superseded by `100`. -/
theorem mapUrlsToLatestEvents_scenarioA_c7 :
    mapUrlsToLatestEvents (some 0) (some 150) false
      ⟨[(100, "a"), (50, "a"), (200, "b")], []⟩ ["a", "b"] = [("a", 100)] := by
  decide

/-- Claim C8: in `lookbackFromEndDate`, the number of distinct page
identities collected from each source individually — the visits-scan map
and the bookmarks-scan map, before merging — never exceeds `skip + limit`,
for every store, window, skip and limit. -/
theorem lookbackFromEndDate_sourceBound_c8 (sd ed skip limit : Nat)
    (allow : String → Bool) (store : Store) :
    (lookbackVisitsMap sd ed skip limit allow store).length ≤ skip + limit ∧
    (lookbackBookmarksMap sd ed skip limit store).length ≤ skip + limit := by
  constructor
  · exact scanLatestVisits_length allow (skip + limit) _ [] (by simp)
  · exact scanLatestBookmarks_length (skip + limit) _ [] (by simp)

/-- Claim C2, counterexample: the bookmarks leg of `lookbackFromEndDate`
does not consult the allow list.  With an allow list rejecting every page
and a single in-window bookmark for page `"bad"`, the result mapping still
contains `"bad"`. -/
theorem lookbackFromEndDate_allowBypass_c2 :
    mapGet (lookbackFromEndDate 0 100 0 1 (fun _ => false) ⟨[], [(50, "bad")]⟩)
      "bad" = some 50 ∧ (fun (_ : String) => false) "bad" = false := by
  constructor
  · decide
  · rfl

/-- Claim C2, amended: the allow list is consulted during the visits scan —
every page of the visits-scan map is permitted — but the bookmarks scan
does not consult it, so a page of the final mapping is either permitted by
the allow list or originates from the bookmarks-scan map. -/
theorem lookbackFromEndDate_allowlist_c2 (sd ed skip limit : Nat)
    (allow : String → Bool) (store : Store) :
    (∀ u, (mapGet (lookbackVisitsMap sd ed skip limit allow store) u).isSome =
      true → allow u = true) ∧
    (∀ u t, mapGet (lookbackFromEndDate sd ed skip limit allow store) u =
      some t → allow u = true ∨
        (mapGet (lookbackBookmarksMap sd ed skip limit store) u).isSome =
          true) := by
  have hvis : ∀ u,
      (mapGet (lookbackVisitsMap sd ed skip limit allow store) u).isSome =
        true → allow u = true := by
    intro u hu
    simp only [lookbackVisitsMap] at hu
    refine scanLatestVisits_allowed allow (skip + limit) _ [] ?_ u hu
    intro u2 hu2
    simp [mapGet] at hu2
  refine ⟨hvis, ?_⟩
  intro u t h
  simp only [lookbackFromEndDate] at h
  rcases mapGet_foldl_addToMap _ _ _ _ h with h1 | ⟨t2, h2⟩
  · simp [mapGet] at h1
  · rcases List.mem_append.mp h2 with hv | hb
    · exact Or.inl (hvis u (mapGet_isSome_of_mem _ _ _ hv))
    · exact Or.inr (mapGet_isSome_of_mem _ _ _ hb)

/-- Witness for the amended C2 at a concrete store: page `"bad"` is in the
result and indeed comes from the bookmarks-scan map. -/
theorem lookbackFromEndDate_allowlist_c2_witness :
    mapGet (lookbackFromEndDate 0 100 0 1 (fun u => decide (u = "good"))
        ⟨[(10, "good")], [(50, "bad")]⟩) "bad" = some 50 ∧
    ((fun u => decide (u = "good")) "bad" = true ∨
      (mapGet (lookbackBookmarksMap 0 100 0 1 ⟨[(10, "good")], [(50, "bad")]⟩)
        "bad").isSome = true) :=
  ⟨by decide,
    (lookbackFromEndDate_allowlist_c2 0 100 0 1 (fun u => decide (u = "good"))
      ⟨[(10, "good")], [(50, "bad")]⟩).2 "bad" 50 (by decide)⟩

/-- Claim C3, counterexample: the claim says an update happens iff no
existing entry has a greater **or equal** time; the code only rejects on a
strictly greater time.  With an existing entry at time `5`, an attempt at
time `5` inside the window returns `true`, so the claimed biconditional is
false at this input. -/
theorem attemptAdd_tie_c3_counterexample :
    mapGet [("a", 5)] "a" = some 5 ∧
    ¬ (((attemptAdd (some 0) (some 10) false [("a", 5)] 5 "a").1 = true) ↔
      (¬ (5 ≥ 5) ∧ ((false : Bool) = true ∨ (0 ≤ 5 ∧ 5 ≤ 10)))) := by
  decide

/-- Claim C3, amended: `attemptAdd` updates `map[pageId]` to `time` iff no
existing entry has a **strictly greater** time for that page AND
(`skipWindowCheck` is true OR `time` falls within `[startDate, endDate]`),
and it returns whether the update occurred. -/
theorem attemptAdd_admission_c3 (sd ed t : Nat) (sk : Bool)
    (m : PageResultsMap) (u : String) :
    ((attemptAdd (some sd) (some ed) sk m t u).1 = true ↔
      ((∀ v, mapGet m u = some v → v ≤ t) ∧
        (sk = true ∨ (sd ≤ t ∧ t ≤ ed)))) ∧
    (attemptAdd (some sd) (some ed) sk m t u).2 =
      (if (attemptAdd (some sd) (some ed) sk m t u).1 = true then mapSet m u t
       else m) := by
  refine ⟨?_, attemptAdd_snd ..⟩
  rw [attemptAdd_fst_iff]
  have hbridge : (mapGet m u).getD 0 ≤ t ↔ (∀ v, mapGet m u = some v → v ≤ t) := by
    cases hmg : mapGet m u with
    | none => simp
    | some v => simp [hmg]
  rw [hbridge]

/-- Witness for the amended C3 at a concrete input. -/
theorem attemptAdd_admission_c3_witness :
    ((attemptAdd (some 0) (some 10) false [("a", 3)] 7 "a").1 = true ↔
      ((∀ v, mapGet [("a", 3)] "a" = some v → v ≤ 7) ∧
        ((false : Bool) = true ∨ (0 ≤ 7 ∧ 7 ≤ 10)))) ∧
    (attemptAdd (some 0) (some 10) false [("a", 3)] 7 "a").2 =
      (if (attemptAdd (some 0) (some 10) false [("a", 3)] 7 "a").1 = true
       then mapSet [("a", 3)] "a" 7 else [("a", 3)]) :=
  attemptAdd_admission_c3 0 10 7 false [("a", 3)] "a"

/-- Claim C5, counterexample: `groupLatestEventsByUrl` performs no
validation of `limit`.  A query with the non-positive limit `0` and
`skip = 2` is dispatched to the end-date aggregator, which scans the store
and returns two pages — nothing is rejected before the scan. -/
theorem groupLatestEventsByUrl_noReject_c5 :
    groupLatestEventsByUrl ⟨some 0, some 100, some 2, some 0, false⟩ 1000 5
      (fun _ => true) ⟨[(10, "a"), (20, "b")], []⟩ =
      some [("b", 20), ("a", 10)] := by
  decide

/-- Claim C5, amended: `groupLatestEventsByUrl` does not reject a
non-positive limit; the query is dispatched normally.  In bookmarks mode
the loop guard `results.size < limit` fails at once and an empty mapping
is returned; in end-date mode the query runs `lookbackFromEndDate`, whose
two scans still gather at most `skip + 0` pages each. -/
theorem groupLatestEventsByUrl_limitZero_c5 (sd ed skip now fuel : Nat)
    (allow : String → Bool) (store : Store) :
    groupLatestEventsByUrl ⟨some sd, some ed, some skip, some 0, true⟩ now fuel
      allow store = some [] ∧
    groupLatestEventsByUrl ⟨some sd, some ed, some skip, some 0, false⟩ now
      fuel allow store = some (lookbackFromEndDate sd ed skip 0 allow store) ∧
    (lookbackVisitsMap sd ed skip 0 allow store).length ≤ skip ∧
    (lookbackBookmarksMap sd ed skip 0 store).length ≤ skip := by
  refine ⟨?_, ?_, ?_, ?_⟩
  · simp only [groupLatestEventsByUrl, lookbackBookmarksTime]
    cases fuel <;> simp [bmLoop]
  · simp [groupLatestEventsByUrl]
  · have h := scanLatestVisits_length allow (skip + 0)
      (sortDesc (store.visits.filter
        (fun r => decide (sd ≤ r.1) && decide (r.1 ≤ ed)))) [] (by simp)
    simpa [lookbackVisitsMap] using h
  · have h := scanLatestBookmarks_length (skip + 0)
      (sortDesc (store.bookmarks.filter
        (fun r => decide (sd ≤ r.1) && decide (r.1 ≤ ed)))) [] (by simp)
    simpa [lookbackBookmarksMap] using h

/-- Claim C9: across any sequence of admission attempts against the same
key — with arbitrary windows, skip flags and times — the stored time for
that key only ever increases or stays unchanged; it never decreases. -/
theorem applyAddsToKey_monotonic_c9 (k : String)
    (ops : List (Option Nat × Option Nat × Bool × Nat)) (m : PageResultsMap)
    (v : Nat) (h : mapGet m k = some v) :
    ∃ v2, mapGet (applyAddsToKey k ops m) k = some v2 ∧ v ≤ v2 := by
  induction ops generalizing m v with
  | nil => exact ⟨v, h, le_rfl⟩
  | cons o rest ih =>
    simp only [applyAddsToKey, List.foldl_cons]
    obtain ⟨v1, h1, hle1⟩ :=
      mapGet_attemptAdd_mono o.1 o.2.1 o.2.2.1 m o.2.2.2 k k v h
    obtain ⟨v2, h2, hle2⟩ := ih _ _ h1
    exact ⟨v2, by simpa [applyAddsToKey] using h2, le_trans hle1 hle2⟩

/-- Witness for C9. -/
theorem applyAddsToKey_monotonic_c9_witness :
    mapGet [("a", 3)] "a" = some 3 ∧
    ∃ v2, mapGet (applyAddsToKey "a" [(some 0, some 10, false, 7)] [("a", 3)])
      "a" = some v2 ∧ 3 ≤ v2 :=
  ⟨by decide,
    applyAddsToKey_monotonic_c9 "a" [(some 0, some 10, false, 7)] [("a", 3)] 3
      (by decide)⟩

/-- Claim C10: whenever both dates are supplied, every value of the mapping
returned by the resolver lies in `[startDate, endDate]`, even in
bookmarks-only mode: out-of-window bookmark times admitted with the skipped
window check are eliminated at the final merge, whose admission calls have
the window check enabled. -/
theorem mapUrlsToLatestEvents_window_c10 (sd ed : Nat) (bookmarks : Bool)
    (store : Store) (urls : List String) (u : String) (t : Nat)
    (h : mapGet (mapUrlsToLatestEvents (some sd) (some ed) bookmarks store
      urls) u = some t) :
    sd ≤ t ∧ t ≤ ed := by
  simp only [mapUrlsToLatestEvents] at h
  have h0 : ∀ u2 t2, mapGet ([] : PageResultsMap) u2 = some t2 →
      sd ≤ t2 ∧ t2 ≤ ed := by
    intro u2 t2 h2
    simp [mapGet] at h2
  exact foldl_attemptAdd_window sd ed _ _
    (foldl_attemptAdd_window sd ed _ _ h0) u t h

/-- Witness for C10, in bookmarks-only mode with a bookmark far outside the
window: the merged value is the in-window visit time. -/
theorem mapUrlsToLatestEvents_window_c10_witness :
    mapGet (mapUrlsToLatestEvents (some 0) (some 150) true
      ⟨[(100, "x")], [(300, "x")]⟩ ["x"]) "x" = some 100 ∧
    (0 ≤ 100 ∧ 100 ≤ 150) :=
  ⟨by decide,
    mapUrlsToLatestEvents_window_c10 0 150 true ⟨[(100, "x")], [(300, "x")]⟩
      ["x"] "x" 100 (by decide)⟩

/-- Claim C6: in the bookmarks-anchored aggregator, a fetched bookmark
entry newer than `endDate` is replaced by the most recent visit time of
that page that is at most `endDate` (the first qualifying record of the
reverse visit scan); when no such visit exists the entry keeps its
out-of-window time and the admit filter drops it.  Concretely, Scenario B:
bookmarks `{(300,"x")}`, visits `{(90,"x"),(250,"x")}`, window `[0,200]`,
`skip=0`, `limit=1` yield `{"x": 90}`. -/
theorem backfill_outOfWindow_c6 :
    (∀ (visits : List (Nat × String)) (ed : Nat) (u : String) (t : Nat),
      ed < t →
      (∀ vt, latestVisitAtOrBefore visits u ed = some vt →
        backfillEntry visits ed (u, t) = (u, vt) ∧ vt ≤ ed ∧
        (∃ r ∈ visits, r.2 = u ∧ r.1 = vt) ∧
        (∀ r ∈ visits, r.2 = u → r.1 ≤ ed → r.1 ≤ vt)) ∧
      (latestVisitAtOrBefore visits u ed = none →
        backfillEntry visits ed (u, t) = (u, t) ∧
        ∀ sd, bmAdmit sd ed (u, t) = false)) ∧
    lookbackBookmarksTime 5 0 200 0 1 1000
      ⟨[(90, "x"), (250, "x")], [(300, "x")]⟩ = some [("x", 90)] := by
  constructor
  · intro visits ed u t hlt
    constructor
    · intro vt hvt
      have hbf : backfillEntry visits ed (u, t) = (u, vt) := by
        simp [backfillEntry, hlt, hvt]
      refine ⟨hbf, ?_⟩
      simp only [latestVisitAtOrBefore, visitsOfUrl, Option.map_eq_some'] at hvt
      obtain ⟨p, hfind, hp1⟩ := hvt
      obtain ⟨hple, hpmem, hmax⟩ := find_first_le ed _ (pairwise_sortDesc _) p hfind
      rw [mem_sortDesc, List.mem_filter] at hpmem
      obtain ⟨hpv, hpu⟩ := hpmem
      refine ⟨hp1 ▸ hple, ⟨p, hpv, by simpa using hpu, hp1⟩, ?_⟩
      intro r hr hru hrle
      have hrmem : r ∈ sortDesc (visits.filter (fun r => decide (r.2 = u))) := by
        rw [mem_sortDesc, List.mem_filter]
        exact ⟨hr, by simpa using hru⟩
      have := hmax r hrmem hrle
      omega
    · intro hnone
      have hbf : backfillEntry visits ed (u, t) = (u, t) := by
        simp [backfillEntry, hlt, hnone]
      refine ⟨hbf, ?_⟩
      intro sd
      have hdec : decide (t ≤ ed) = false := by
        simp only [decide_eq_false_iff_not]
        omega
      simp [bmAdmit, hdec]
  · decide

/-- Witness for C6 at Scenario B's own backfill call: the out-of-window
bookmark time `300` is replaced by visit time `90`, the latest visit not
above `200`. -/
theorem backfill_outOfWindow_c6_witness :
    backfillEntry [(90, "x"), (250, "x")] 200 ("x", 300) = ("x", 90) ∧
    90 ≤ 200 := by
  have h := (backfill_outOfWindow_c6.1 [(90, "x"), (250, "x")] 200 "x" 300
    (by decide)).1 90 (by decide)
  exact ⟨h.1, h.2.1⟩

end Memex
